import Mathlib

/-!
Verification of the enumerated-class-graph engine of the lv2-se-bundle
repository: the bitset directed-graph type over a fixed enumeration
(src/enum_graph/mod.rs), the hash-based ancestor traversal trait
(src/graph/mod.rs), the class-hierarchy DFS (src/bundle_model/subclasses/mod.rs)
and the static implication table (src/bundle_model/implications/mod.rs).

The Rust node type is an EnumSetType + Enum enumeration: a finite type with
decidable equality and an explicit enumeration order, modelled by a type `T`
with a `FinEnum` instance (only `DecidableEq` where the enumeration itself is
not needed).  An EnumSet over T is modelled by `Finset T`, and an EnumMap from
T by a total function out of T.
-/

set_option maxHeartbeats 1000000

/-- Embedding of struct EnumSetDiGraph from src/enum_graph/mod.rs: a directed
graph over the enumeration T, holding an adjacency set for each node. -/
@[ext]
structure EnumSetDiGraph (T : Type) where
  adj_sets : T → Finset T

namespace EnumSetDiGraph

variable {T : Type}

/-- Embedding of EnumSetDiGraph::new: a graph with no edges (every adjacency
set is empty). -/
def new : EnumSetDiGraph T :=
  ⟨fun _ => ∅⟩

/-- Embedding of EnumSetDiGraph::has_edge: membership of `tn` in the adjacency
set of `from`. -/
def has_edge [DecidableEq T] (g : EnumSetDiGraph T) (fr tn : T) : Bool :=
  decide (tn ∈ g.adj_sets fr)

/-- Embedding of EnumSetDiGraph::adjacent_nodes. -/
def adjacent_nodes (g : EnumSetDiGraph T) (fr : T) : Finset T :=
  g.adj_sets fr

/-- Embedding of the while loop in EnumSetDiGraph::reachable_nodes: an
iterative depth-first search.  The Rust stack is a Vec popped from the end;
here the head of the list is the top of the stack.  Pushing the members of an
EnumSet onto the stack one by one only determines the order in which nodes are
visited, never the final visited set, so the order in which
the members of `adj n` are appended is immaterial.  The filter of the full
enumeration list realizes the iteration over the members of the EnumSet
`adj n` in enumeration order.

Termination: every iteration either inserts a previously unvisited node into
`visited` (so the number of unvisited nodes, bounded by the size of the finite
enumeration, strictly decreases) or leaves `visited` unchanged while the stack
shrinks by one. -/
def dfsLoop [FinEnum T] (adj : T → Finset T) : List T → Finset T → Finset T
  | [], visited => visited
  | n :: stack, visited =>
    if h : n ∈ visited then
      dfsLoop adj stack visited
    else
      dfsLoop adj (((FinEnum.toList T).filter fun x => x ∈ adj n) ++ stack)
        (insert n visited)
termination_by stack visited => (Fintype.card T - visited.card, stack.length)
decreasing_by
· apply Prod.Lex.right
  simp
· apply Prod.Lex.left
  have h1 : visited.card < Fintype.card T := by
    have h2 : visited ⊂ Finset.univ := by
      refine Finset.ssubset_univ_iff.mpr fun hv => h ?_
      rw [hv]
      exact Finset.mem_univ n
    simpa using Finset.card_lt_card h2
  have h3 : (insert n visited).card = visited.card + 1 :=
    Finset.card_insert_of_not_mem h
  omega

/-- Embedding of EnumSetDiGraph::reachable_nodes: DFS starting from the
one-element stack `[from]` with an empty visited set. -/
def reachable_nodes [FinEnum T] (g : EnumSetDiGraph T) (fr : T) : Finset T :=
  dfsLoop g.adj_sets [fr] ∅

/-- Embedding of EnumSetDiGraph::has_path. -/
def has_path [FinEnum T] (g : EnumSetDiGraph T) (fr tn : T) : Bool :=
  decide (tn ∈ g.reachable_nodes fr)

/-- Embedding of EnumSetDiGraph::insert_edge: adds `tn` into the adjacency set
of `from`; the map at all other nodes is unchanged. -/
def insert_edge [DecidableEq T] (g : EnumSetDiGraph T) (fr tn : T) : EnumSetDiGraph T :=
  ⟨Function.update g.adj_sets fr (insert tn (g.adj_sets fr))⟩

/-- Embedding of EnumSetDiGraph::transitive_closure: the adjacency set of each
node `from` of the output is `reachable_nodes from` of the input. -/
def transitive_closure [FinEnum T] (g : EnumSetDiGraph T) : EnumSetDiGraph T :=
  ⟨fun fr => g.reachable_nodes fr⟩

/-- Embedding of EnumSetDiGraph::reverse.  The Rust code inserts the edge
(tn, from) into the output for every edge (from, tn) of the input, iterating
over all nodes; hence the output adjacency set at a node `tn` is exactly the
set of nodes `from` whose input adjacency set contains `tn`. -/
def reverse [FinEnum T] (g : EnumSetDiGraph T) : EnumSetDiGraph T :=
  ⟨fun tn => Finset.univ.filter fun fr => tn ∈ g.adj_sets fr⟩

/-- Embedding of EnumSetDiGraph::union: pointwise union of the two adjacency
maps. -/
def union [DecidableEq T] (g h : EnumSetDiGraph T) : EnumSetDiGraph T :=
  ⟨fun n => g.adj_sets n ∪ h.adj_sets n⟩

/-- Embedding of the FromIterator impl for EnumSetDiGraph: start from `new`
and insert every pair of the list as an edge, in order. -/
def from_iter [DecidableEq T] (l : List (T × T)) : EnumSetDiGraph T :=
  l.foldl (fun g e => g.insert_edge e.1 e.2) new

/-- The one-step edge relation of a graph: used for stating reachability
specifications about the DFS. -/
def edgeRel (g : EnumSetDiGraph T) (a b : T) : Prop :=
  b ∈ g.adj_sets a

/-- Specification-side notion of reachability: `y` is reachable from `x` via a
path of zero or more directed edges. -/
def Reach (g : EnumSetDiGraph T) : T → T → Prop :=
  Relation.ReflTransGen g.edgeRel

end EnumSetDiGraph

section Escape

variable {T : Type}

/-- Escape lemma shared by all three DFS-style loops: if every `R`-successor of
a node of `visited` lies in `visited` or on the frontier `stack`, then an
`R`-path starting inside `visited` either stays inside `visited` or passes
through a frontier node. -/
theorem reach_escape {R : T → T → Prop} {visited : Finset T} {stack : List T}
    (hinv : ∀ v ∈ visited, ∀ w, R v w → w ∈ visited ∨ w ∈ stack)
    {x y : T} (hx : x ∈ visited) (hr : Relation.ReflTransGen R x y) :
    y ∈ visited ∨ ∃ s ∈ stack, Relation.ReflTransGen R s y := by
  revert hx
  induction hr using Relation.ReflTransGen.head_induction_on with
  | refl => exact fun hy => Or.inl hy
  | head hac hcy ih =>
    intro ha
    rcases hinv _ ha _ hac with hc | hc
    · exact ih hc
    · exact Or.inr ⟨_, hc, hcy⟩

end Escape

namespace EnumSetDiGraph

variable {T : Type}

/-- Correctness of the DFS work loop of reachable_nodes: under the closure
invariant relating `visited` and the stack, the computed set consists of the
already visited nodes together with everything reachable from the stack. -/
theorem mem_dfsLoop [FinEnum T] (adj : T → Finset T) (stack : List T) (visited : Finset T) :
    (∀ v ∈ visited, ∀ w ∈ adj v, w ∈ visited ∨ w ∈ stack) →
    ∀ y, (y ∈ dfsLoop adj stack visited ↔
      y ∈ visited ∨ ∃ x ∈ stack, Relation.ReflTransGen (fun a b => b ∈ adj a) x y) := by
  induction stack, visited using dfsLoop.induct adj with
  | case1 visited =>
    intro _ y
    rw [dfsLoop]
    simp
  | case2 n stack visited hmem ih =>
    intro hinv y
    rw [dfsLoop, dif_pos hmem]
    have hinv2 : ∀ v ∈ visited, ∀ w ∈ adj v, w ∈ visited ∨ w ∈ stack := by
      intro v hv w hw
      rcases hinv v hv w hw with h | h
      · exact Or.inl h
      · rcases List.mem_cons.mp h with rfl | h
        · exact Or.inl hmem
        · exact Or.inr h
    rw [ih hinv2 y]
    constructor
    · rintro (h | ⟨x, hx, hr⟩)
      · exact Or.inl h
      · exact Or.inr ⟨x, List.mem_cons_of_mem _ hx, hr⟩
    · rintro (h | ⟨x, hx, hr⟩)
      · exact Or.inl h
      · rcases List.mem_cons.mp hx with rfl | hx
        · rcases reach_escape (fun v hv w hw => hinv2 v hv w hw) hmem hr with h | ⟨s, hs, hsr⟩
          · exact Or.inl h
          · exact Or.inr ⟨s, hs, hsr⟩
        · exact Or.inr ⟨x, hx, hr⟩
  | case3 n stack visited hmem ih =>
    intro hinv y
    rw [dfsLoop, dif_neg hmem]
    have hinv3 : ∀ v ∈ insert n visited, ∀ w ∈ adj v,
        w ∈ insert n visited ∨
          w ∈ List.filter (fun x => decide (x ∈ adj n)) (FinEnum.toList T) ++ stack := by
      intro v hv w hw
      rcases Finset.mem_insert.mp hv with rfl | hv
      · refine Or.inr (List.mem_append_left _ ?_)
        simp [List.mem_filter, hw]
      · rcases hinv v hv w hw with h | h
        · exact Or.inl (Finset.mem_insert_of_mem h)
        · rcases List.mem_cons.mp h with rfl | h
          · exact Or.inl (Finset.mem_insert_self _ _)
          · exact Or.inr (List.mem_append_right _ h)
    rw [ih hinv3 y]
    constructor
    · rintro (h | ⟨x, hx, hr⟩)
      · rcases Finset.mem_insert.mp h with rfl | h
        · exact Or.inr ⟨y, List.mem_cons_self _ _, Relation.ReflTransGen.refl⟩
        · exact Or.inl h
      · rcases List.mem_append.mp hx with hx | hx
        · have hxadj : x ∈ adj n := by
            have := List.mem_filter.mp hx
            simpa using this.2
          exact Or.inr ⟨n, List.mem_cons_self _ _, Relation.ReflTransGen.head hxadj hr⟩
        · exact Or.inr ⟨x, List.mem_cons_of_mem _ hx, hr⟩
    · rintro (h | ⟨x, hx, hr⟩)
      · exact Or.inl (Finset.mem_insert_of_mem h)
      · rcases List.mem_cons.mp hx with rfl | hx
        · rcases Relation.ReflTransGen.cases_head hr with rfl | ⟨c, hc, hcy⟩
          · exact Or.inl (Finset.mem_insert_self _ _)
          · refine Or.inr ⟨c, List.mem_append_left _ ?_, hcy⟩
            simp [List.mem_filter, hc]
        · exact Or.inr ⟨x, List.mem_append_right _ hx, hr⟩

/-- Main specification of reachable_nodes: a node is in the DFS result exactly
when it is reachable from the start node by a path of zero or more edges. -/
theorem mem_reachable_nodes [FinEnum T] (g : EnumSetDiGraph T) (fr y : T) :
    y ∈ g.reachable_nodes fr ↔ g.Reach fr y := by
  rw [reachable_nodes, mem_dfsLoop g.adj_sets [fr] ∅ (by simp) y]
  simp only [Finset.not_mem_empty, false_or, List.mem_singleton]
  constructor
  · rintro ⟨x, rfl, hr⟩
    exact hr
  · intro hr
    exact ⟨fr, rfl, hr⟩

/-- Auxiliary: the edge relation of the transitive closure is exactly the
reachability relation of the original graph. -/
theorem edgeRel_transitive_closure [FinEnum T] (g : EnumSetDiGraph T) :
    g.transitive_closure.edgeRel = g.Reach := by
  funext a b
  exact propext (mem_reachable_nodes g a b)

/-- Auxiliary: reachability in the transitive closure coincides with
reachability in the original graph. -/
theorem Reach_transitive_closure [FinEnum T] (g : EnumSetDiGraph T) :
    g.transitive_closure.Reach = g.Reach := by
  rw [Reach, edgeRel_transitive_closure, Reach, Relation.reflTransGen_idem]

/-- C1: the graph returned by transitive_closure has an edge from x to y if and
only if y is reachable from x in the original graph by a path of zero or more
edges; consequently every node has a self-loop in the result. -/
theorem C1_transitive_closure_iff_reachable [FinEnum T] (g : EnumSetDiGraph T) (x y : T) :
    (g.transitive_closure.has_edge x y = true ↔ g.Reach x y) ∧
      g.transitive_closure.has_edge x x = true := by
  have hxy : ∀ z, g.transitive_closure.has_edge x z = true ↔ g.Reach x z := by
    intro z
    rw [has_edge, decide_eq_true_iff]
    exact mem_reachable_nodes g x z
  exact ⟨hxy y, (hxy x).mpr Relation.ReflTransGen.refl⟩

/-- C3: transitive closure is idempotent. -/
theorem C3_transitive_closure_idem [FinEnum T] (g : EnumSetDiGraph T) :
    g.transitive_closure.transitive_closure = g.transitive_closure := by
  ext fr y
  show y ∈ g.transitive_closure.reachable_nodes fr ↔ y ∈ g.reachable_nodes fr
  rw [mem_reachable_nodes, mem_reachable_nodes, Reach_transitive_closure]

/-- C4: the iterative DFS of reachable_nodes terminates on every graph (the
Lean embedding is a total function, defined by well-founded recursion on the
pair of the number of unvisited nodes and the stack length, which is exactly
the termination argument for the Rust while loop), and the resulting set
always contains the start node. -/
theorem C4_reachable_nodes_contains_start [FinEnum T] (g : EnumSetDiGraph T) (n : T) :
    n ∈ g.reachable_nodes n :=
  (mem_reachable_nodes g n n).mpr Relation.ReflTransGen.refl

/-- C5: union is the pointwise union of adjacency sets, it is commutative and
associative, and the empty graph new is a two-sided identity for it. -/
theorem C5_union_algebra [DecidableEq T] (g h k : EnumSetDiGraph T) :
    (∀ n, (g.union h).adj_sets n = g.adj_sets n ∪ h.adj_sets n) ∧
      g.union h = h.union g ∧
      g.union (h.union k) = (g.union h).union k ∧
      g.union new = g ∧ new.union g = g := by
  refine ⟨fun n => rfl, ?_, ?_, ?_, ?_⟩
  · ext n y
    simp [union, Finset.union_comm]
  · ext n y
    simp [union, Finset.union_assoc]
  · ext n y
    simp [union, new]
  · ext n y
    simp [union, new]

/-- C6: reverse flips every edge, and reversing twice gives back the original
graph. -/
theorem C6_reverse_involution [FinEnum T] (g : EnumSetDiGraph T) (a b : T) :
    g.reverse.has_edge b a = g.has_edge a b ∧ g.reverse.reverse = g := by
  constructor
  · rw [has_edge, has_edge, decide_eq_decide, reverse]
    simp
  · ext tn fr
    simp [reverse]

end EnumSetDiGraph

namespace EnumSetDiGraph

variable {T : Type}

/-- Auxiliary: membership in the adjacency sets of a fold of insert_edge over
a list of pairs, starting from an arbitrary graph. -/
theorem mem_foldl_insert_edge [DecidableEq T] (l : List (T × T)) (g : EnumSetDiGraph T)
    (fr tn : T) :
    tn ∈ (l.foldl (fun g e => g.insert_edge e.1 e.2) g).adj_sets fr ↔
      tn ∈ g.adj_sets fr ∨ (fr, tn) ∈ l := by
  induction l generalizing g with
  | nil => simp
  | cons e l ih =>
    rw [List.foldl_cons, ih]
    simp only [insert_edge, Function.update_apply, List.mem_cons]
    by_cases h : fr = e.1
    · subst h
      simp [Prod.ext_iff]
      tauto
    · simp [h, Prod.ext_iff]

/-- Specification of sequential graph construction: from_iter l has exactly
the edges listed in l. -/
theorem mem_from_iter [DecidableEq T] (l : List (T × T)) (fr tn : T) :
    tn ∈ (from_iter l).adj_sets fr ↔ (fr, tn) ∈ l := by
  rw [from_iter, mem_foldl_insert_edge]
  simp [new]

end EnumSetDiGraph

/-- A reduction tree for the FromParallelIterator impl of EnumSetDiGraph: the
rayon pipeline maps every edge of the input to the singleton-edge graph
from_iter [e] and reduces the resulting graphs with union, interleaving the
identity new at arbitrary positions.  A tree of this shape describes every
possible partitioning and association of the combining step. -/
inductive EdgeTree (T : Type) where
  | empty : EdgeTree T
  | leaf : T × T → EdgeTree T
  | node : EdgeTree T → EdgeTree T → EdgeTree T

namespace EdgeTree

variable {T : Type}

/-- The graph computed by a parallel reduction with the given tree shape. -/
def eval [DecidableEq T] : EdgeTree T → EnumSetDiGraph T
  | .empty => EnumSetDiGraph.new
  | .leaf e => EnumSetDiGraph.from_iter [e]
  | .node l r => (eval l).union (eval r)

/-- The edges carried by the leaves of a reduction tree, in left-to-right
order. -/
def edges : EdgeTree T → List (T × T)
  | .empty => []
  | .leaf e => [e]
  | .node l r => edges l ++ edges r

/-- Auxiliary: a parallel reduction tree evaluates to the graph with exactly
the edges of its leaves. -/
theorem mem_eval [DecidableEq T] (t : EdgeTree T) (fr tn : T) :
    tn ∈ (eval t).adj_sets fr ↔ (fr, tn) ∈ edges t := by
  induction t with
  | empty => simp [eval, edges, EnumSetDiGraph.new]
  | leaf e => simp [eval, edges, EnumSetDiGraph.mem_from_iter]
  | node l r ihl ihr => simp [eval, edges, EnumSetDiGraph.union, ihl, ihr]

end EdgeTree

/-- C2: building a graph by splitting the pairs into singleton-edge subgraphs
in any partitioning and permutation (a reduction tree whose leaf edges are a
permutation of the input list, with the empty graph as the reduce identity)
and combining them with union yields exactly the graph built by sequential
insertion of every pair with insert_edge. -/
theorem C2_parallel_construction_eq_sequential {T : Type} [DecidableEq T]
    (t : EdgeTree T) (l : List (T × T)) (hp : t.edges.Perm l) :
    t.eval = EnumSetDiGraph.from_iter l := by
  ext fr tn
  rw [EdgeTree.mem_eval, EnumSetDiGraph.mem_from_iter]
  exact hp.mem_iff

/-- Witness for C2 at a concrete input: the tree union(leaf (true,false),
union(empty, leaf (false,false))) over Bool evaluates to the sequential graph
of the permuted list [(false,false), (true,false)]. -/
theorem C2_witness :
    (EdgeTree.node (.leaf (true, false)) (.node .empty (.leaf (false, false)))).eval =
      EnumSetDiGraph.from_iter [(false, false), (true, false)] :=
  C2_parallel_construction_eq_sequential _ _ (by decide)

/-- Embedding of the enum PluginType from src/bundle_model/constants/mod.rs,
the node type of the static plugin-type implication graph. -/
inductive PluginType where
  | Delay
  | Reverb
  | Distortion
  | Waveshaper
  | Dynamics
  | Amplifier
  | Compressor
  | Envelope
  | Expander
  | Gate
  | Limiter
  | Filter
  | Allpass
  | Bandpass
  | Comb
  | EQ
  | MultiEQ
  | ParaEQ
  | Highpass
  | Lowpass
  | Generator
  | Constant
  | Instrument
  | Oscillator
  | Midi
  | Modulator
  | Chorus
  | Flanger
  | Phaser
  | Simulator
  | Spatial
  | Spectral
  | Pitch
  | Utility
  | Analyser
  | Converter
  | Function
  | Mixer
deriving DecidableEq

/-- Enumeration instance for PluginType, listing the variants in their
declaration order as the Rust Enum derive does. -/
instance : FinEnum PluginType :=
  FinEnum.ofList [.Delay, .Reverb, .Distortion, .Waveshaper, .Dynamics, .Amplifier, .Compressor, .Envelope, .Expander, .Gate, .Limiter, .Filter, .Allpass, .Bandpass, .Comb, .EQ, .MultiEQ, .ParaEQ, .Highpass, .Lowpass, .Generator, .Constant, .Instrument, .Oscillator, .Midi, .Modulator, .Chorus, .Flanger, .Phaser, .Simulator, .Spatial, .Spectral, .Pitch, .Utility, .Analyser, .Converter, .Function, .Mixer] (by intro x; cases x <;> decide)

/-- Embedding of the direct_implications edge list from
src/bundle_model/implications/mod.rs. -/
def direct_implications : List (PluginType × PluginType) := [
  (.Reverb, .Delay),
  (.Reverb, .Simulator),
  (.Waveshaper, .Distortion),
  (.Amplifier, .Dynamics),
  (.Compressor, .Dynamics),
  (.Envelope, .Dynamics),
  (.Expander, .Dynamics),
  (.Gate, .Dynamics),
  (.Limiter, .Dynamics),
  (.Allpass, .Filter),
  (.Bandpass, .Filter),
  (.Comb, .Filter),
  (.EQ, .Filter),
  (.MultiEQ, .Filter),
  (.ParaEQ, .Filter),
  (.Highpass, .Filter),
  (.Lowpass, .Filter),
  (.MultiEQ, .EQ),
  (.ParaEQ, .EQ),
  (.Constant, .Generator),
  (.Instrument, .Generator),
  (.Oscillator, .Generator),
  (.Chorus, .Modulator),
  (.Flanger, .Modulator),
  (.Phaser, .Modulator),
  (.Pitch, .Spectral),
  (.Analyser, .Utility),
  (.Converter, .Utility),
  (.Function, .Utility),
  (.Mixer, .Utility)]

/-- Embedding of the static PLUGIN_TYPES_IMPLIED graph of
src/bundle_model/implications/mod.rs: the transitive closure of the graph of
the direct implications.  The Rust code assembles the edge list with
from_par_iter; by the parallel reduction results above (mem_eval together with
mem_from_iter), every rayon reduction of the mapped singleton graphs produces
the same graph as the sequential from_iter, so the latter is used here. -/
def PLUGIN_TYPES_IMPLIED : EnumSetDiGraph PluginType :=
  (EnumSetDiGraph.from_iter direct_implications).transitive_closure

namespace EnumSetDiGraph

/-- Auxiliary: has_path on a transitive closure is reachability in the
underlying graph. -/
theorem has_path_transitive_closure {T : Type} [FinEnum T] (g : EnumSetDiGraph T) (a b : T) :
    g.transitive_closure.has_path a b = true ↔ g.Reach a b := by
  rw [has_path, decide_eq_true_iff, mem_reachable_nodes, Reach_transitive_closure]

end EnumSetDiGraph

/-- C7: in the static plugin-type implication graph, there is a path from
Reverb to Delay, none from Delay to Reverb, and a (self-loop) path from Reverb
to Reverb. -/
theorem C7_plugin_implication_paths :
    PLUGIN_TYPES_IMPLIED.has_path PluginType.Reverb PluginType.Delay = true ∧
      PLUGIN_TYPES_IMPLIED.has_path PluginType.Delay PluginType.Reverb = false ∧
      PLUGIN_TYPES_IMPLIED.has_path PluginType.Reverb PluginType.Reverb = true := by
  have hchar : ∀ a b, PLUGIN_TYPES_IMPLIED.has_path a b = true ↔
      (EnumSetDiGraph.from_iter direct_implications).Reach a b := fun a b =>
    EnumSetDiGraph.has_path_transitive_closure _ a b
  refine ⟨?_, ?_, ?_⟩
  · refine (hchar _ _).mpr (Relation.ReflTransGen.single ?_)
    show PluginType.Delay ∈ (EnumSetDiGraph.from_iter direct_implications).adj_sets .Reverb
    rw [EnumSetDiGraph.mem_from_iter]
    decide
  · rw [Bool.eq_false_iff]
    intro hpath
    have hr := (hchar _ _).mp hpath
    have hnone : ∀ c, (PluginType.Delay, c) ∉ direct_implications := by decide
    rcases Relation.ReflTransGen.cases_head hr with heq | ⟨c, hc, -⟩
    · exact absurd heq (by decide)
    · exact hnone c ((EnumSetDiGraph.mem_from_iter _ _ _).mp hc)
  · exact (hchar _ _).mpr Relation.ReflTransGen.refl

section AncestorTraversal

variable {T : Type}

/-- Embedding of the inner for loop of one round of
ParentFindingDigraphNode::ancestors_and_self (src/graph/mod.rs): walk the
current next_parents list in order; every not yet visited entry is marked
visited and contributes its parents to the next round, in order.  Returns the
pair (next_next_parents, updated visited set). -/
def expandRound [DecidableEq T] (parents : T → List T) :
    List T → Finset T → List T × Finset T
  | [], visited => ([], visited)
  | p :: ps, visited =>
    if p ∈ visited then expandRound parents ps visited
    else
      (parents p ++ (expandRound parents ps (insert p visited)).1,
        (expandRound parents ps (insert p visited)).2)

/-- Auxiliary: one round marks exactly the processed entries as visited. -/
theorem expandRound_snd [DecidableEq T] (parents : T → List T) (ps : List T) (vis : Finset T) :
    (expandRound parents ps vis).2 = vis ∪ ps.toFinset := by
  induction ps generalizing vis with
  | nil => simp [expandRound]
  | cons p ps ih =>
    by_cases h : p ∈ vis
    · rw [expandRound, if_pos h, ih]
      ext z
      simp only [Finset.mem_union, List.mem_toFinset, List.mem_cons]
      constructor
      · rintro (hz | hz)
        · exact Or.inl hz
        · exact Or.inr (Or.inr hz)
      · rintro (hz | rfl | hz)
        · exact Or.inl hz
        · exact Or.inl h
        · exact Or.inr hz
    · rw [expandRound, if_neg h]
      simp only [ih]
      ext z
      simp


/-- Auxiliary: a round over entries that are all visited produces no new work
and leaves the visited set unchanged. -/
theorem expandRound_all_visited [DecidableEq T] (parents : T → List T) (ps : List T)
    (vis : Finset T) (h : ∀ p ∈ ps, p ∈ vis) : expandRound parents ps vis = ([], vis) := by
  induction ps with
  | nil => rw [expandRound]
  | cons p ps ih =>
    rw [expandRound, if_pos (h p (List.mem_cons_self _ _))]
    exact ih fun q hq => h q (List.mem_cons_of_mem _ hq)

/-- Auxiliary: every entry of the produced next round is a parent of some
entry of the current round. -/
theorem expandRound_fst_sound [DecidableEq T] (parents : T → List T) (ps : List T)
    (vis : Finset T) (w : T) (hw : w ∈ (expandRound parents ps vis).1) :
    ∃ p ∈ ps, w ∈ parents p := by
  induction ps generalizing vis with
  | nil => simp [expandRound] at hw
  | cons p ps ih =>
    rw [expandRound] at hw
    by_cases h : p ∈ vis
    · rw [if_pos h] at hw
      rcases ih vis hw with ⟨q, hq, hqw⟩
      exact ⟨q, List.mem_cons_of_mem _ hq, hqw⟩
    · rw [if_neg h] at hw
      rcases List.mem_append.mp hw with hw | hw
      · exact ⟨p, List.mem_cons_self _ _, hw⟩
      · rcases ih (insert p vis) hw with ⟨q, hq, hqw⟩
        exact ⟨q, List.mem_cons_of_mem _ hq, hqw⟩

/-- Auxiliary: the closure invariant of the outer loop is preserved by a
round: if the parents of every visited node lie in the visited set, the
current round or the emitted set E, then after the round the parents of every
newly visited node lie in the new visited set, the next round or E. -/
theorem expandRound_inv [DecidableEq T] (parents : T → List T) (ps : List T)
    (vis : Finset T) (E : List T)
    (h : ∀ v ∈ vis, ∀ w ∈ parents v, w ∈ vis ∨ w ∈ ps ∨ w ∈ E) :
    ∀ v ∈ (expandRound parents ps vis).2, ∀ w ∈ parents v,
      w ∈ (expandRound parents ps vis).2 ∨ w ∈ (expandRound parents ps vis).1 ∨ w ∈ E := by
  induction ps generalizing vis E with
  | nil =>
    intro v hv w hw
    rw [expandRound] at hv ⊢
    rcases h v hv w hw with h1 | h1 | h1
    · exact Or.inl h1
    · simp at h1
    · exact Or.inr (Or.inr h1)
  | cons p ps ih =>
    intro v hv w hw
    rw [expandRound] at hv ⊢
    by_cases hp : p ∈ vis
    · rw [if_pos hp] at hv ⊢
      refine ih vis E ?_ v hv w hw
      intro u hu z hz
      rcases h u hu z hz with h1 | h1 | h1
      · exact Or.inl h1
      · rcases List.mem_cons.mp h1 with rfl | h1
        · exact Or.inl hp
        · exact Or.inr (Or.inl h1)
      · exact Or.inr (Or.inr h1)
    · rw [if_neg hp] at hv ⊢
      have hrec := ih (insert p vis) (parents p ++ E) ?_ v hv w hw
      · rcases hrec with h1 | h1 | h1
        · exact Or.inl h1
        · exact Or.inr (Or.inl (List.mem_append_right _ h1))
        · rcases List.mem_append.mp h1 with h1 | h1
          · exact Or.inr (Or.inl (List.mem_append_left _ h1))
          · exact Or.inr (Or.inr h1)
      · intro u hu z hz
        rcases Finset.mem_insert.mp hu with rfl | hu
        · exact Or.inr (Or.inr (List.mem_append_left _ hz))
        · rcases h u hu z hz with h1 | h1 | h1
          · exact Or.inl (Finset.mem_insert_of_mem h1)
          · rcases List.mem_cons.mp h1 with rfl | h1
            · exact Or.inl (Finset.mem_insert_self _ _)
            · exact Or.inr (Or.inl h1)
          · exact Or.inr (Or.inr (List.mem_append_right _ h1))

/-- Embedding of the outer while loop of
ParentFindingDigraphNode::ancestors_and_self: while next_parents is nonempty,
run one round, add the round entries to the output, and continue with the
produced next round.

Termination: a round over a list containing an unvisited node strictly grows
the visited set (bounded by the finite node domain); a round over a list of
visited nodes only produces an empty next round. -/
def ancLoop [DecidableEq T] [Fintype T] (parents : T → List T) :
    List T → Finset T → Finset T → Finset T
  | [], _, output => output
  | p :: ps, visited, output =>
    ancLoop parents (expandRound parents (p :: ps) visited).1
      (expandRound parents (p :: ps) visited).2
      (output ∪ (p :: ps).toFinset)
termination_by np visited _ => (Fintype.card T - visited.card, np.length)
decreasing_by
rcases Classical.em (∀ q ∈ p :: ps, q ∈ visited) with hall | hex
· rw [expandRound_all_visited parents _ _ hall]
  apply Prod.Lex.right
  simp
· apply Prod.Lex.left
  push_neg at hex
  rcases hex with ⟨q, hq, hqv⟩
  have hsub : visited ⊂ (expandRound parents (p :: ps) visited).2 := by
    rw [expandRound_snd]
    constructor
    · exact Finset.subset_union_left
    · intro hcontra
      exact hqv (hcontra (Finset.mem_union_right _ (List.mem_toFinset.mpr hq)))
  have h1 := Finset.card_lt_card hsub
  have h2 : (expandRound parents (p :: ps) visited).2.card ≤ Fintype.card T :=
    Finset.card_le_univ _
  omega

/-- Embedding of ParentFindingDigraphNode::ancestors_and_self: output starts
as the singleton of the node itself, visited starts empty, and the first round
processes the node's parents. -/
def ancestors_and_self [DecidableEq T] [Fintype T] (parents : T → List T) (x : T) : Finset T :=
  ancLoop parents (parents x) ∅ {x}

/-- Correctness of the outer traversal loop: under the closure invariant and
the invariant that visited nodes are already in the output, the loop returns
the output together with everything reachable (via the parent relation) from
the pending round. -/
theorem mem_ancLoop [DecidableEq T] [Fintype T] (parents : T → List T)
    (np : List T) (vis out : Finset T) :
    (∀ v ∈ vis, ∀ w ∈ parents v, w ∈ vis ∨ w ∈ np) →
    (∀ v ∈ vis, v ∈ out) →
    ∀ y, (y ∈ ancLoop parents np vis out ↔
      y ∈ out ∨ ∃ p ∈ np, Relation.ReflTransGen (fun a b => b ∈ parents a) p y) := by
  induction np, vis, out using ancLoop.induct parents with
  | case1 vis out =>
    intro _ _ y
    rw [ancLoop]
    simp
  | case2 p ps vis out ih =>
    intro hinv hvo y
    rw [ancLoop]
    have hinv2 : ∀ v ∈ (expandRound parents (p :: ps) vis).2, ∀ w ∈ parents v,
        w ∈ (expandRound parents (p :: ps) vis).2 ∨
          w ∈ (expandRound parents (p :: ps) vis).1 := by
      intro v hv w hw
      rcases expandRound_inv parents (p :: ps) vis []
        (fun u hu z hz => by
          rcases hinv u hu z hz with h1 | h1
          · exact Or.inl h1
          · exact Or.inr (Or.inl h1)) v hv w hw with h1 | h1 | h1
      · exact Or.inl h1
      · exact Or.inr h1
      · simp at h1
    have hvo2 : ∀ v ∈ (expandRound parents (p :: ps) vis).2,
        v ∈ out ∪ (p :: ps).toFinset := by
      intro v hv
      rw [expandRound_snd] at hv
      rcases Finset.mem_union.mp hv with hv | hv
      · exact Finset.mem_union_left _ (hvo v hv)
      · exact Finset.mem_union_right _ hv
    rw [ih hinv2 hvo2 y]
    constructor
    · rintro (h | ⟨q, hq, hr⟩)
      · rcases Finset.mem_union.mp h with h | h
        · exact Or.inl h
        · exact Or.inr ⟨y, List.mem_toFinset.mp h, Relation.ReflTransGen.refl⟩
      · rcases expandRound_fst_sound parents _ _ _ hq with ⟨p', hp', hqp⟩
        exact Or.inr ⟨p', hp', Relation.ReflTransGen.head hqp hr⟩
    · rintro (h | ⟨p', hp', hr⟩)
      · exact Or.inl (Finset.mem_union_left _ h)
      · have hpvis : p' ∈ (expandRound parents (p :: ps) vis).2 := by
          rw [expandRound_snd]
          exact Finset.mem_union_right _ (List.mem_toFinset.mpr hp')
        rcases reach_escape (fun v hv w hw => hinv2 v hv w hw) hpvis hr with h1 | ⟨s, hs, hsr⟩
        · rw [expandRound_snd] at h1
          rcases Finset.mem_union.mp h1 with h1 | h1
          · exact Or.inl (Finset.mem_union_left _ (hvo y h1))
          · exact Or.inl (Finset.mem_union_right _ h1)
        · exact Or.inr ⟨s, hs, hsr⟩

/-- Main specification of ancestors_and_self: a node y is in the result for x
exactly when y is reachable from x by following the parent relation zero or
more times. -/
theorem mem_ancestors_and_self [DecidableEq T] [Fintype T] (parents : T → List T) (x y : T) :
    y ∈ ancestors_and_self parents x ↔
      Relation.ReflTransGen (fun a b => b ∈ parents a) x y := by
  rw [ancestors_and_self, mem_ancLoop parents _ _ _ (by simp) (by simp) y]
  simp only [Finset.mem_singleton]
  constructor
  · rintro (rfl | ⟨p, hp, hr⟩)
    · exact Relation.ReflTransGen.refl
    · exact Relation.ReflTransGen.head hp hr
  · intro hr
    rcases Relation.ReflTransGen.cases_head hr with rfl | ⟨c, hc, hcy⟩
    · exact Or.inl rfl
    · exact Or.inr ⟨c, hc, hcy⟩

end AncestorTraversal

/-- C8: for any parent-finding node type with a two-node parent cycle
(A.parents() == [B] and B.parents() == [A]), ancestors_and_self A terminates
(the embedding is a total function) and returns exactly the set containing A
and B. -/
theorem C8_two_node_cycle {T : Type} [DecidableEq T] [Fintype T]
    (parents : T → List T) (a b : T) (ha : parents a = [b]) (hb : parents b = [a]) :
    ancestors_and_self parents a = {a, b} := by
  ext y
  rw [mem_ancestors_and_self]
  constructor
  · intro hr
    have hclosed : ∀ v ∈ ({a, b} : Finset T), ∀ w, w ∈ parents v →
        w ∈ ({a, b} : Finset T) ∨ w ∈ ([] : List T) := by
      intro v hv w hw
      rcases Finset.mem_insert.mp hv with rfl | hv
      · rw [ha] at hw
        simp at hw
        simp [hw]
      · rw [Finset.mem_singleton.mp hv, hb] at hw
        simp at hw
        simp [hw]
    rcases reach_escape hclosed (Finset.mem_insert_self a {b}) hr with h | ⟨s, hs, -⟩
    · exact h
    · simp at hs
  · intro hy
    rcases Finset.mem_insert.mp hy with rfl | hy
    · exact Relation.ReflTransGen.refl
    · rw [Finset.mem_singleton.mp hy]
      exact Relation.ReflTransGen.single (by rw [ha]; exact List.mem_singleton.mpr rfl)

/-- Witness for C8 at a concrete input: over Bool with each node the parent of
the other, the ancestors of false are exactly {false, true}. -/
theorem C8_witness :
    ancestors_and_self (fun x : Bool => [!x]) false = {false, true} :=
  C8_two_node_cycle (fun x : Bool => [!x]) false true rfl rfl

/-- Embedding of the enum StdAtomType from src/bundle_model/subclasses/mod.rs:
identifiers for the standard LV2 atom classes. -/
inductive StdAtomType where
  | Atom
  | Bool
  | Chunk
  | Literal
  | Number
  | Double
  | Float
  | Int
  | Long
  | Object
  | Property
  | Sequence
  | String
  | Uri
  | Path
  | Tuple
  | Urid
  | Vector
  | Sound
  | MidiEvent
  | MidiSystemMessage
  | MidiSystemCommon
  | MidiQuarterFrame
  | MidiSongPosition
  | MidiSongSelect
  | MidiTuneRequest
  | MidiSystemExclusive
  | MidiSystemRealtime
  | MidiActiveSense
  | MidiClock
  | MidiContinue
  | MidiReset
  | MidiStart
  | MidiStop
  | MidiVoiceMessage
  | MidiAftertouch
  | MidiBender
  | MidiChannelPressure
  | MidiController
  | MidiNoteOff
  | MidiNoteOn
  | MidiProgramChange
deriving DecidableEq, Fintype

/-- Embedding of direct_superclasses from the ClassInHierarchy impl for
StdAtomType (src/bundle_model/subclasses/mod.rs): each atom class has at most
one direct superclass; the wildcard arm makes Atom the superclass of every
class without an explicit arm. -/
def StdAtomType.direct_superclasses : StdAtomType → Option StdAtomType
  | .Atom => none
  | .Double => some .Number
  | .Float => some .Number
  | .Int => some .Number
  | .Long => some .Number
  | .Uri => some .String
  | .Path => some .Uri
  | .Sound => some .Vector
  | .MidiSystemMessage => some .MidiEvent
  | .MidiSystemCommon => some .MidiSystemMessage
  | .MidiQuarterFrame => some .MidiSystemCommon
  | .MidiSongPosition => some .MidiSystemCommon
  | .MidiSongSelect => some .MidiSystemCommon
  | .MidiTuneRequest => some .MidiSystemCommon
  | .MidiSystemExclusive => some .MidiSystemMessage
  | .MidiSystemRealtime => some .MidiSystemMessage
  | .MidiActiveSense => some .MidiSystemRealtime
  | .MidiClock => some .MidiSystemRealtime
  | .MidiContinue => some .MidiSystemRealtime
  | .MidiReset => some .MidiSystemRealtime
  | .MidiStart => some .MidiSystemRealtime
  | .MidiStop => some .MidiSystemRealtime
  | .MidiVoiceMessage => some .MidiEvent
  | .MidiAftertouch => some .MidiVoiceMessage
  | .MidiBender => some .MidiVoiceMessage
  | .MidiChannelPressure => some .MidiVoiceMessage
  | .MidiController => some .MidiVoiceMessage
  | .MidiNoteOff => some .MidiVoiceMessage
  | .MidiNoteOn => some .MidiVoiceMessage
  | .MidiProgramChange => some .MidiVoiceMessage
  | _ => some .Atom

/-- Modelled from the spec: the repository defines the generic
ancestors_and_self traversal and the StdAtomType direct-superclass chain but
contains no ParentFindingDigraphNode impl for StdAtomType; the spec example
pairs the two, with parents() given by the direct superclasses.  The Option
iterator of the Rust impl corresponds to a list of at most one parent. -/
def StdAtomType.parents (t : StdAtomType) : List StdAtomType :=
  t.direct_superclasses.toList

/-- C9: the ancestor set of MidiNoteOn under the StdAtomType direct-superclass
parent relation is exactly the chain MidiNoteOn, MidiVoiceMessage, MidiEvent,
Atom. -/
theorem C9_midi_note_on_ancestors :
    ancestors_and_self StdAtomType.parents .MidiNoteOn =
      ({.MidiNoteOn, .MidiVoiceMessage, .MidiEvent, .Atom} : Finset StdAtomType) := by
  ext y
  rw [mem_ancestors_and_self]
  constructor
  · intro hr
    have hclosed : ∀ v ∈ ({.MidiNoteOn, .MidiVoiceMessage, .MidiEvent, .Atom} :
        Finset StdAtomType), ∀ w, w ∈ StdAtomType.parents v →
        w ∈ ({.MidiNoteOn, .MidiVoiceMessage, .MidiEvent, .Atom} : Finset StdAtomType) ∨
          w ∈ ([] : List StdAtomType) := by decide
    rcases reach_escape hclosed (by decide) hr with h | ⟨s, hs, -⟩
    · exact h
    · simp at hs
  · intro hy
    have h1 : StdAtomType.MidiVoiceMessage ∈ StdAtomType.parents .MidiNoteOn := by decide
    have h2 : StdAtomType.MidiEvent ∈ StdAtomType.parents .MidiVoiceMessage := by decide
    have h3 : StdAtomType.Atom ∈ StdAtomType.parents .MidiEvent := by decide
    simp only [Finset.mem_insert, Finset.mem_singleton] at hy
    rcases hy with rfl | rfl | rfl | rfl
    · exact Relation.ReflTransGen.refl
    · exact Relation.ReflTransGen.single h1
    · exact Relation.ReflTransGen.head h1 (Relation.ReflTransGen.single h2)
    · exact Relation.ReflTransGen.head h1
        (Relation.ReflTransGen.head h2 (Relation.ReflTransGen.single h3))

/-- Embedding of the enum StdPluginType from
src/bundle_model/subclasses/mod.rs: identifiers for the standard LV2 plugin
classes. -/
inductive StdPluginType where
  | Plugin
  | DelayPlugin
  | ReverbPlugin
  | DistortionPlugin
  | WaveshaperPlugin
  | DynamicsPlugin
  | AmplifierPlugin
  | CompressorPlugin
  | EnvelopePlugin
  | ExpanderPlugin
  | GatePlugin
  | LimiterPlugin
  | FilterPlugin
  | AllpassPlugin
  | BandpassPlugin
  | CombPlugin
  | EQPlugin
  | MultiEQPlugin
  | ParaEQPlugin
  | HighpassPlugin
  | LowpassPlugin
  | GeneratorPlugin
  | ConstantPlugin
  | InstrumentPlugin
  | OscillatorPlugin
  | ModulatorPlugin
  | ChorusPlugin
  | FlangerPlugin
  | PhaserPlugin
  | SimulatorPlugin
  | SpatialPlugin
  | SpectralPlugin
  | PitchPlugin
  | UtilityPlugin
  | AnalyserPlugin
  | ConverterPlugin
  | FunctionPlugin
  | MixerPlugin
deriving DecidableEq, Fintype

/-- Embedding of direct_superclasses from the ClassInHierarchy impl for
StdPluginType (src/bundle_model/subclasses/mod.rs); the wildcard arm makes
Plugin the sole direct superclass of every class without an explicit arm. -/
def StdPluginType.direct_superclasses : StdPluginType → List StdPluginType
  | .Plugin => []
  | .ReverbPlugin => [.Plugin, .DelayPlugin, .SimulatorPlugin]
  | .WaveshaperPlugin => [.DistortionPlugin]
  | .AmplifierPlugin => [.DynamicsPlugin]
  | .CompressorPlugin => [.DynamicsPlugin]
  | .EnvelopePlugin => [.DynamicsPlugin]
  | .ExpanderPlugin => [.DynamicsPlugin]
  | .GatePlugin => [.DynamicsPlugin]
  | .LimiterPlugin => [.DynamicsPlugin]
  | .AllpassPlugin => [.FilterPlugin]
  | .BandpassPlugin => [.FilterPlugin]
  | .CombPlugin => [.FilterPlugin]
  | .EQPlugin => [.FilterPlugin]
  | .MultiEQPlugin => [.EQPlugin]
  | .ParaEQPlugin => [.EQPlugin]
  | .HighpassPlugin => [.FilterPlugin]
  | .LowpassPlugin => [.FilterPlugin]
  | .ConstantPlugin => [.GeneratorPlugin]
  | .InstrumentPlugin => [.GeneratorPlugin]
  | .OscillatorPlugin => [.GeneratorPlugin]
  | .ChorusPlugin => [.ModulatorPlugin]
  | .FlangerPlugin => [.ModulatorPlugin]
  | .PhaserPlugin => [.ModulatorPlugin]
  | .PitchPlugin => [.SpectralPlugin]
  | .AnalyserPlugin => [.UtilityPlugin]
  | .ConverterPlugin => [.UtilityPlugin]
  | .FunctionPlugin => [.UtilityPlugin]
  | .MixerPlugin => [.UtilityPlugin]
  | _ => [.Plugin]

section SubclassSearch

variable {T : Type}

/-- Embedding of the while-let loop of ClassInHierarchy::is_subclass_of
(src/bundle_model/subclasses/mod.rs): pop the next node off the `remaining`
stack; return true if it equals `other`; otherwise, if it has not been
visited, push its direct superclasses and mark it visited.  The Rust stack is
a Vec popped from the end, so extending it with the superclass iterator makes
the later superclasses be popped first; with the head of the list as the top
of the stack this corresponds to pushing the reversed superclass list.

Termination: as for the reachability DFS, by the pair of the number of
unvisited nodes and the stack length. -/
def subLoop [DecidableEq T] [Fintype T] (supers : T → List T) (other : T) :
    List T → Finset T → Bool
  | [], _ => false
  | n :: remaining, visited =>
    if other = n then true
    else if h : n ∈ visited then
      subLoop supers other remaining visited
    else
      subLoop supers other ((supers n).reverse ++ remaining) (insert n visited)
termination_by remaining visited => (Fintype.card T - visited.card, remaining.length)
decreasing_by
· apply Prod.Lex.right
  simp
· apply Prod.Lex.left
  have h1 : visited.card < Fintype.card T := by
    have h2 : visited ⊂ Finset.univ := by
      refine Finset.ssubset_univ_iff.mpr fun hv => h ?_
      rw [hv]
      exact Finset.mem_univ n
    simpa using Finset.card_lt_card h2
  have h3 : (insert n visited).card = visited.card + 1 :=
    Finset.card_insert_of_not_mem h
  omega

/-- Embedding of ClassInHierarchy::is_subclass_of: the search starts with the
stack holding the class itself and nothing visited. -/
def is_subclass_of [DecidableEq T] [Fintype T] (supers : T → List T) (self other : T) : Bool :=
  subLoop supers other [self] ∅

/-- Correctness of the search loop of is_subclass_of: as long as `other` has
not been visited and the closure invariant ties the visited set to the stack,
the loop returns true exactly when `other` is reachable (along the superclass
relation) from some stack entry. -/
theorem subLoop_eq_true_iff [DecidableEq T] [Fintype T] (supers : T → List T) (other : T)
    (stack : List T) (visited : Finset T) :
    (∀ v ∈ visited, ∀ w ∈ supers v, w ∈ visited ∨ w ∈ stack) →
    other ∉ visited →
    (subLoop supers other stack visited = true ↔
      ∃ n ∈ stack, Relation.ReflTransGen (fun a b => b ∈ supers a) n other) := by
  induction stack, visited using subLoop.induct supers other with
  | case1 visited =>
    intro _ _
    rw [subLoop]
    simp
  | case2 remaining visited =>
    intro _ _
    rw [subLoop, if_pos rfl]
    exact ⟨fun _ => ⟨other, List.mem_cons_self _ _, Relation.ReflTransGen.refl⟩,
      fun _ => rfl⟩
  | case3 n remaining visited hne hmem ih =>
    intro hinv hother
    rw [subLoop, if_neg hne, dif_pos hmem]
    have hinv2 : ∀ v ∈ visited, ∀ w ∈ supers v, w ∈ visited ∨ w ∈ remaining := by
      intro v hv w hw
      rcases hinv v hv w hw with h | h
      · exact Or.inl h
      · rcases List.mem_cons.mp h with rfl | h
        · exact Or.inl hmem
        · exact Or.inr h
    rw [ih hinv2 hother]
    constructor
    · rintro ⟨m, hm, hr⟩
      exact ⟨m, List.mem_cons_of_mem _ hm, hr⟩
    · rintro ⟨m, hm, hr⟩
      rcases List.mem_cons.mp hm with rfl | hm
      · rcases reach_escape (fun v hv w hw => hinv2 v hv w hw) hmem hr with h | ⟨s, hs, hsr⟩
        · exact absurd h hother
        · exact ⟨s, hs, hsr⟩
      · exact ⟨m, hm, hr⟩
  | case4 n remaining visited hne hmem ih =>
    intro hinv hother
    rw [subLoop, if_neg hne, dif_neg hmem]
    have hother2 : other ∉ insert n visited := by
      intro hcontra
      rcases Finset.mem_insert.mp hcontra with rfl | h
      · exact hne rfl
      · exact hother h
    have hinv2 : ∀ v ∈ insert n visited, ∀ w ∈ supers v,
        w ∈ insert n visited ∨ w ∈ (supers n).reverse ++ remaining := by
      intro v hv w hw
      rcases Finset.mem_insert.mp hv with rfl | hv
      · exact Or.inr (List.mem_append_left _ (List.mem_reverse.mpr hw))
      · rcases hinv v hv w hw with h | h
        · exact Or.inl (Finset.mem_insert_of_mem h)
        · rcases List.mem_cons.mp h with rfl | h
          · exact Or.inl (Finset.mem_insert_self _ _)
          · exact Or.inr (List.mem_append_right _ h)
    rw [ih hinv2 hother2]
    constructor
    · rintro ⟨m, hm, hr⟩
      rcases List.mem_append.mp hm with hm | hm
      · exact ⟨n, List.mem_cons_self _ _,
          Relation.ReflTransGen.head (List.mem_reverse.mp hm) hr⟩
      · exact ⟨m, List.mem_cons_of_mem _ hm, hr⟩
    · rintro ⟨m, hm, hr⟩
      rcases List.mem_cons.mp hm with rfl | hm
      · rcases Relation.ReflTransGen.cases_head hr with rfl | ⟨c, hc, hcy⟩
        · exact absurd rfl hne
        · exact ⟨c, List.mem_append_left _ (List.mem_reverse.mpr hc), hcy⟩
      · exact ⟨m, List.mem_append_right _ hm, hr⟩

/-- Main specification of is_subclass_of: it returns true exactly when
`other` is reachable from `self` along the direct-superclass relation (in
zero or more steps, so every class is a subclass of itself). -/
theorem is_subclass_of_iff [DecidableEq T] [Fintype T] (supers : T → List T)
    (self other : T) :
    is_subclass_of supers self other = true ↔
      Relation.ReflTransGen (fun a b => b ∈ supers a) self other := by
  rw [is_subclass_of,
    subLoop_eq_true_iff supers other [self] ∅ (by simp) (Finset.not_mem_empty other)]
  constructor
  · rintro ⟨n, hn, hr⟩
    rwa [List.mem_singleton.mp hn] at hr
  · intro hr
    exact ⟨self, List.mem_singleton.mpr rfl, hr⟩

end SubclassSearch

/-- C10: every standard plugin class (including Plugin itself) is a subclass
of the root class Plugin: is_subclass_of over the StdPluginType
direct-superclass relation returns true with Plugin as the target, for every
variant. -/
theorem C10_all_types_subclass_of_plugin (t : StdPluginType) :
    is_subclass_of StdPluginType.direct_superclasses t .Plugin = true := by
  rw [is_subclass_of_iff]
  have hstep : ∀ a b : StdPluginType, b ∈ a.direct_superclasses →
      Relation.ReflTransGen (fun a b => b ∈ StdPluginType.direct_superclasses a) b .Plugin →
      Relation.ReflTransGen (fun a b => b ∈ StdPluginType.direct_superclasses a) a .Plugin :=
    fun _ _ h1 h2 => Relation.ReflTransGen.head h1 h2
  have hP : Relation.ReflTransGen (fun a b => b ∈ StdPluginType.direct_superclasses a)
      .Plugin .Plugin := Relation.ReflTransGen.refl
  have hDyn := hstep .DynamicsPlugin _ (by decide) hP
  have hFil := hstep .FilterPlugin _ (by decide) hP
  have hGen := hstep .GeneratorPlugin _ (by decide) hP
  have hMod := hstep .ModulatorPlugin _ (by decide) hP
  have hSpec := hstep .SpectralPlugin _ (by decide) hP
  have hUtil := hstep .UtilityPlugin _ (by decide) hP
  have hDist := hstep .DistortionPlugin _ (by decide) hP
  have hEQ := hstep .EQPlugin _ (by decide) hFil
  cases t with
  | Plugin => exact hP
  | DelayPlugin => exact hstep _ _ (by decide) hP
  | ReverbPlugin => exact hstep _ _ (by decide) hP
  | DistortionPlugin => exact hDist
  | WaveshaperPlugin => exact hstep _ _ (by decide) hDist
  | DynamicsPlugin => exact hDyn
  | AmplifierPlugin => exact hstep _ _ (by decide) hDyn
  | CompressorPlugin => exact hstep _ _ (by decide) hDyn
  | EnvelopePlugin => exact hstep _ _ (by decide) hDyn
  | ExpanderPlugin => exact hstep _ _ (by decide) hDyn
  | GatePlugin => exact hstep _ _ (by decide) hDyn
  | LimiterPlugin => exact hstep _ _ (by decide) hDyn
  | FilterPlugin => exact hFil
  | AllpassPlugin => exact hstep _ _ (by decide) hFil
  | BandpassPlugin => exact hstep _ _ (by decide) hFil
  | CombPlugin => exact hstep _ _ (by decide) hFil
  | EQPlugin => exact hEQ
  | MultiEQPlugin => exact hstep _ _ (by decide) hEQ
  | ParaEQPlugin => exact hstep _ _ (by decide) hEQ
  | HighpassPlugin => exact hstep _ _ (by decide) hFil
  | LowpassPlugin => exact hstep _ _ (by decide) hFil
  | GeneratorPlugin => exact hGen
  | ConstantPlugin => exact hstep _ _ (by decide) hGen
  | InstrumentPlugin => exact hstep _ _ (by decide) hGen
  | OscillatorPlugin => exact hstep _ _ (by decide) hGen
  | ModulatorPlugin => exact hMod
  | ChorusPlugin => exact hstep _ _ (by decide) hMod
  | FlangerPlugin => exact hstep _ _ (by decide) hMod
  | PhaserPlugin => exact hstep _ _ (by decide) hMod
  | SimulatorPlugin => exact hstep _ _ (by decide) hP
  | SpatialPlugin => exact hstep _ _ (by decide) hP
  | SpectralPlugin => exact hSpec
  | PitchPlugin => exact hstep _ _ (by decide) hSpec
  | UtilityPlugin => exact hUtil
  | AnalyserPlugin => exact hstep _ _ (by decide) hUtil
  | ConverterPlugin => exact hstep _ _ (by decide) hUtil
  | FunctionPlugin => exact hstep _ _ (by decide) hUtil
  | MixerPlugin => exact hstep _ _ (by decide) hUtil
